import Mathlib

/-!
# Verification of the `fusion_plots` binding-energy module

Shallow embedding of `src/binding_energy/binding_energy.py`.

Modelling conventions:
* Python strings are `List Char`; a "line" carries its trailing newline,
  as produced by iterating over a web response or an open file.
* Python floats (and the NumPy float32 arrays built from the parsed data)
  are idealized as exact rationals `ℚ`; the claims under study are about
  the arithmetic formulas, not about rounding in binary floating point.
* `float(s)` / `np.asarray(..., dtype=float)` string conversion is
  modelled by `pyFloat`, covering Python's finite decimal literals
  (optional sign, digits with optional fraction part, optional exponent,
  surrounding whitespace stripped).  The special spellings `inf`/`nan`
  and digit-group underscores are not modelled; no claim involves them.
* A raised Python exception is an `Except.error` carrying a `PyError`;
  the early `return -1` on a bad HTTP status is the distinguished
  `ReadResult.transportFailure` value.
-/

deriving instance DecidableEq for Except

namespace FusionPlots

/-- Python `str.strip` whitespace set (ASCII part). -/
def pyIsSpace (c : Char) : Bool :=
  c == ' ' || c == '\t' || c == '\n' || c == '\r' || c == '\x0b' || c == '\x0c'

/-- Python `str.strip`: drop whitespace from both ends. -/
def trimList (l : List Char) : List Char :=
  ((l.dropWhile pyIsSpace).reverse.dropWhile pyIsSpace).reverse

/-- Python `str.split(sep)` for a one-character separator: split at every
occurrence of `c`, keeping empty pieces. -/
def splitOnChar (c : Char) : List Char → List (List Char)
  | [] => [[]]
  | x :: xs =>
    let r := splitOnChar c xs
    if x = c then [] :: r
    else
      match r with
      | [] => [[x]]
      | h :: t => (x :: h) :: t

/-- Index of the first occurrence of `c` in `l` (`None` if absent). -/
def findIdxC (c : Char) : List Char → Option ℕ
  | [] => none
  | x :: xs => if x = c then some 0 else (findIdxC c xs).map (· + 1)

/-- Python `s.index(c, start)` (as an `Option`; `str.index` raises
`ValueError` when the character does not occur at or after `start`). -/
def charIndexFrom (l : List Char) (c : Char) (start : ℕ) : Option ℕ :=
  (findIdxC c (l.drop start)).map (· + start)

/-- Python slice `s[i:j]` (empty when `j ≤ i`, clamped at the ends). -/
def pySlice (l : List Char) (i j : ℕ) : List Char :=
  (l.drop i).take (j - i)

/-- Value of a digit string (most significant first). -/
def digitsToNat (l : List Char) : ℕ :=
  l.foldl (fun a c => a * 10 + (c.toNat - 48)) 0

/-- Helper for `pyFloat`: apply the exponent part `erest` (everything from
the `e`/`E` marker on, possibly empty) to an already-parsed signed mantissa. -/
def pyFloatExp (mantissa : ℚ) (erest : List Char) : Option ℚ :=
  match erest with
  | [] => some mantissa
  | _ :: er =>
    let sd : ℤ × List Char :=
      match er with
      | '+' :: r => (1, r)
      | '-' :: r => (-1, r)
      | _ => (1, er)
    if sd.2 ≠ [] ∧ sd.2.all Char.isDigit then
      some (mantissa * (10 : ℚ) ^ (sd.1 * (digitsToNat sd.2 : ℤ)))
    else none

/-- Python `float(s)` on finite decimal literals: strip whitespace, then an
optional sign, an integer part and/or a fraction part, and an optional
exponent.  Returns `none` exactly when Python raises `ValueError`
(`inf`/`nan` and underscore digit grouping are outside the model). -/
def pyFloat (s : List Char) : Option ℚ :=
  let t := trimList s
  let sm : ℚ × List Char :=
    match t with
    | '+' :: r => (1, r)
    | '-' :: r => (-1, r)
    | _ => (1, t)
  let mant := sm.2.takeWhile (fun c => !(c == 'e' || c == 'E'))
  let erest := sm.2.drop mant.length
  let ip := mant.takeWhile (fun c => c != '.')
  match mant.drop ip.length with
  | '.' :: fp =>
    if ip.all Char.isDigit ∧ fp.all Char.isDigit ∧ (ip ≠ [] ∨ fp ≠ []) then
      pyFloatExp (sm.1 * (digitsToNat ip + (digitsToNat fp : ℚ) / (10 : ℚ) ^ fp.length)) erest
    else none
  | [] =>
    if ip.all Char.isDigit ∧ ip ≠ [] then
      pyFloatExp (sm.1 * (digitsToNat ip : ℚ)) erest
    else none
  | _ => none

/-- A cell of the parsed table: Mode A stores numbers for the three numeric
labels and raw text for `Atomic Symbol`; Mode B stores raw text everywhere. -/
inductive Val where
  | num : ℚ → Val
  | str : List Char → Val
deriving DecidableEq, Repr

/-- The `NIST_dataset` dictionary: four ordered sequences, keyed (in Python
insertion order) `Atomic Number`, `Atomic Symbol`, `Mass Number`,
`Relative Atomic Mass`. -/
structure NISTTable where
  atomicNumber : List Val
  atomicSymbol : List Val
  massNumber : List Val
  relativeAtomicMass : List Val
deriving DecidableEq, Repr

/-- The freshly initialized dictionary with four empty lists. -/
def emptyTable : NISTTable := ⟨[], [], [], []⟩

def lblAN : List Char := "Atomic Number".toList
def lblAS : List Char := "Atomic Symbol".toList
def lblMN : List Char := "Mass Number".toList
def lblRAM : List Char := "Relative Atomic Mass".toList

/-- The dictionary keys, in Python insertion order. -/
def labels : List (List Char) := [lblAN, lblAS, lblMN, lblRAM]

/-- `NIST_dataset[label].append(v)` for a key `label` of the dictionary. -/
def appendField (t : NISTTable) (label : List Char) (v : Val) : NISTTable :=
  if label = lblAN then { t with atomicNumber := t.atomicNumber ++ [v] }
  else if label = lblAS then { t with atomicSymbol := t.atomicSymbol ++ [v] }
  else if label = lblMN then { t with massNumber := t.massNumber ++ [v] }
  else if label = lblRAM then { t with relativeAtomicMass := t.relativeAtomicMass ++ [v] }
  else t

/-- The lengths of the four sequences, in key order. -/
def tableLengths (t : NISTTable) : List ℕ :=
  [t.atomicNumber.length, t.atomicSymbol.length,
   t.massNumber.length, t.relativeAtomicMass.length]

/-- Mode B's blank-line consistency check: `all(elem == lengths[0] ...)`
(`lengths[0]` is the `Atomic Number` sequence's length). -/
def lensConsistent (t : NISTTable) : Bool :=
  (tableLengths t).all (fun n => n == t.atomicNumber.length)

/-- Raised Python exceptions reachable in `read_NIST_data`. -/
inductive PyError where
  /-- `ValueError` from `str.index`: separator not found. -/
  | indexNotFound : List Char → PyError
  /-- `ValueError` from `float(...)` on a non-numeric field (the spec's
  `MalformedRecord`). -/
  | malformedRecord : List Char → PyError
  /-- `ValueError` from unpacking `line.split('=')` into two variables. -/
  | unpackError : List Char → PyError
deriving DecidableEq, Repr

/-- Mode A value extraction for a matched `label` whose `=` sits at index
`ie`: the value starts at `id_0 = ie + 1`; if a `(` occurs in
`line[id_0:]`, the code takes `id_1 = line.index('(', len(label))` —
note: the search restarts at `len(label)`, not at `id_0` — else
`id_1 = len(line)`; the value is `line[id_0:id_1]`. -/
def modeASliceOf (line label : List Char) (ie : ℕ) : Except PyError (List Char) :=
  let id0 := ie + 1
  if (line.drop id0).contains '(' then
    match charIndexFrom line '(' label.length with
    | some ip => .ok (pySlice line id0 ip)
    | none => .error (.indexNotFound line)
  else .ok (pySlice line id0 line.length)

/-- Mode A processing of a line that starts with `label`: find the `=` at
or after the end of the label, slice out the value, keep it as text for
`Atomic Symbol` and otherwise `float(...)` it, then append. -/
def modeAProcessLabel (t : NISTTable) (line label : List Char) :
    Except PyError NISTTable :=
  match charIndexFrom line '=' label.length with
  | none => .error (.indexNotFound line)
  | some ie =>
    match modeASliceOf line label ie with
    | .error e => .error e
    | .ok slice =>
      if label = lblAS then .ok (appendField t label (.str slice))
      else
        match pyFloat slice with
        | some q => .ok (appendField t label (.num q))
        | none => .error (.malformedRecord line)

/-- The inner `for label in NIST_dataset:` loop of Mode A. -/
def modeALineGo (t : NISTTable) (line : List Char) :
    List (List Char) → Except PyError NISTTable
  | [] => .ok t
  | label :: rest =>
    if label.isPrefixOf line then
      match modeAProcessLabel t line label with
      | .error e => .error e
      | .ok t1 => modeALineGo t1 line rest
    else modeALineGo t line rest

/-- Mode A processing of one decoded line. -/
def modeALine (t : NISTTable) (line : List Char) : Except PyError NISTTable :=
  modeALineGo t line labels

/-- The Mode A `for line in web_NIST:` loop. -/
def parseA (t : NISTTable) : List (List Char) → Except PyError NISTTable
  | [] => .ok t
  | line :: rest =>
    match modeALine t line with
    | .error e => .error e
    | .ok t1 => parseA t1 rest

/-- The (single) warning message printed at an inconsistent record
boundary in Mode B (the source prints it on two lines). -/
def inconsistentWarning : List Char :=
  "WARNING: there is an error in extracting the data for the file".toList

/-- Mode B processing of one file line, threading the table and the list
of warnings emitted so far.  A line containing `=` is split and, when its
trimmed tag is a dictionary key, the trimmed, paren-truncated value is
appended as text; a line equal to a single newline is a record boundary
and triggers the length-consistency check.  (In the source these are two
separate `if`s, but no line satisfies both.) -/
def modeBLine (st : NISTTable × List (List Char)) (line : List Char) :
    Except PyError (NISTTable × List (List Char)) :=
  if line.contains '=' then
    match splitOnChar '=' line with
    | [tagRaw, valueRaw] =>
      let tag := trimList tagRaw
      let value0 := trimList valueRaw
      let value := if value0.contains '(' then (splitOnChar '(' value0).headD [] else value0
      if labels.contains tag then .ok (appendField st.1 tag (.str value), st.2)
      else .ok st
    | _ => .error (.unpackError line)
  else if line = ['\n'] then
    if lensConsistent st.1 then .ok st
    else .ok (st.1, st.2 ++ [inconsistentWarning])
  else .ok st

/-- The Mode B `for line in open(fname):` loop. -/
def parseB (st : NISTTable × List (List Char)) :
    List (List Char) → Except PyError (NISTTable × List (List Char))
  | [] => .ok st
  | line :: rest =>
    match modeBLine st line with
    | .error e => .error e
    | .ok st1 => parseB st1 rest

/-- Result of `read_NIST_data`: either the populated dictionary or the
sentinel `-1` returned on a bad HTTP status code. -/
inductive ReadResult where
  | table : NISTTable → ReadResult
  | transportFailure : ℤ → ReadResult
deriving DecidableEq, Repr

/-- `read_NIST_data(url, fname)`.  The transport is abstracted: a supplied
`url` becomes `some (statusCode, decodedLines)`, a supplied `fname`
becomes `some fileLines`.  A status other than 200 returns the sentinel
before any line is processed; otherwise Mode A runs, then (if a file is
also supplied) Mode B appends into the same dictionary.  The second
component of the result collects the Mode B warnings. -/
def read_NIST_data (web : Option (ℤ × List (List Char)))
    (file : Option (List (List Char))) :
    Except PyError (ReadResult × List (List Char)) :=
  match web with
  | some (code, webLines) =>
    if code = 200 then
      match parseA emptyTable webLines with
      | .error e => .error e
      | .ok t =>
        match file with
        | some fl =>
          match parseB (t, []) fl with
          | .error e => .error e
          | .ok (t1, ws) => .ok (.table t1, ws)
        | none => .ok (.table t, [])
    else .ok (.transportFailure code, [])
  | none =>
    match file with
    | some fl =>
      match parseB (emptyTable, []) fl with
      | .error e => .error e
      | .ok (t1, ws) => .ok (.table t1, ws)
    | none => .ok (.table emptyTable, [])

/-! ## The binding-energy calculator -/

/-- `np.around`: round half to even (banker's rounding), as `ℤ`. -/
def roundHalfEven (q : ℚ) : ℤ :=
  if q - ⌊q⌋ < 1/2 then ⌊q⌋
  else if 1/2 < q - ⌊q⌋ then ⌊q⌋ + 1
  else if ⌊q⌋ % 2 = 0 then ⌊q⌋ else ⌊q⌋ + 1

/-- Elementwise conversion with failure, modelling
`np.asarray(list, dtype=float)` (which raises on the first
non-convertible entry). -/
def mapOpt (f : α → Option β) : List α → Option (List β)
  | [] => some []
  | a :: as =>
    match f a, mapOpt f as with
    | some b, some bs => some (b :: bs)
    | _, _ => none

/-- Numeric coercion of one cell: a stored number is itself; stored text
is parsed like a Python float literal. -/
def toNum : Val → Option ℚ
  | .num q => some q
  | .str s => pyFloat s

/-- `amu = 931.494095` (MeV per u). -/
def qAmu : ℚ := 931494095 / 1000000

/-- `neutron_u = 1.00866491588`. -/
def qNeutron : ℚ := 100866491588 / 100000000000

/-- `proton_u = 1.00727646688`. -/
def qProton : ℚ := 100727646688 / 100000000000

/-- `electron_u = 0.00054858`. -/
def qElectron : ℚ := 54858 / 100000000

/-- `get_mass_number`: convert the `Relative Atomic Mass` sequence to an
array and round each entry to the nearest integer (`np.around`). -/
def get_mass_number (t : NISTTable) : Option (List ℚ) :=
  (mapOpt toNum t.relativeAtomicMass).map
    (List.map (fun q => ((roundHalfEven q : ℤ) : ℚ)))

/-- `get_binding_energy`: mass defect per isotope, optionally divided by
the mass number.  Elementwise NumPy arithmetic is modelled by `zipWith`
under an explicit equal-length check (NumPy raises on mismatched 1-D
shapes; length-one broadcasting is not modelled, no claim involves it). -/
def get_binding_energy (t : NISTTable) (norm : Bool) : Option (List ℚ) :=
  match mapOpt toNum t.relativeAtomicMass, mapOpt toNum t.atomicNumber,
      get_mass_number t with
  | some atomic_mass, some atomic_number, some mass_number =>
    if atomic_number.length = atomic_mass.length then
      let n_neutrons := List.zipWith (fun m z => m - z) mass_number atomic_number
      let mass_defect :=
        List.zipWith (fun p m => (p - m) * qAmu)
          (List.zipWith (fun n z => n * qNeutron + z * qProton + z * qElectron)
            n_neutrons atomic_number)
          atomic_mass
      if norm then some (List.zipWith (fun d m => d / m) mass_defect mass_number)
      else some mass_defect
    else none
  | _, _, _ => none

/-- The elementwise mass-defect array exactly as `get_binding_energy`
computes it (`((n_neutrons*neutron_u + atomic_number*proton_u +
atomic_number*electron_u) - atomic_mass) * amu`), spelled out on the
already-converted numeric sequences. -/
def codeMassDefect (ams ans : List ℚ) : List ℚ :=
  List.zipWith (fun p m => (p - m) * qAmu)
    (List.zipWith (fun n z => n * qNeutron + z * qProton + z * qElectron)
      (List.zipWith (fun m z => m - z)
        (ams.map (fun q => ((roundHalfEven q : ℤ) : ℚ))) ans) ans)
    ams

/-! ## Claim-side definitions and concrete inputs -/

/-- The mass-defect formula exactly as the specification states it:
`massDefect[i] = (neutronCount[i]*neutronMass +
AtomicNumber[i]*(protonMass+electronMass) - RelativeAtomicMass[i]) * amu`
with `neutronCount[i] = massNumber[i] - AtomicNumber[i]`.  Stated from
the spec's words, to be compared with `get_binding_energy`. -/
def claimMassDefect (ams ans : List ℚ) : List ℚ :=
  List.zipWith
    (fun m z =>
      ((((roundHalfEven m : ℤ) : ℚ) - z) * qNeutron +
        z * (qProton + qElectron) - m) * qAmu)
    ams ans

/-- The helium-4 record of property P5: `AtomicNumber = 2`,
`RelativeAtomicMass = 4.002602`. -/
def he4 : NISTTable :=
  ⟨[.num 2], [.str "He".toList], [.num 4], [.num (4002602 / 1000000)]⟩

/-- The exact normalized binding energy the formula yields on helium-4
(numerically `7.07421456005745110` MeV). -/
def he4BE : ℚ :=
  ((((4 : ℚ) - 2) * qNeutron + 2 * (qProton + qElectron) - 4002602 / 1000000)
    * qAmu) / 4

/-- A Mode A line with a `(` between the label and the `=`: the `(`-search
restarts at the end of the label, so the claimed truncation point (first
`(` after the value start) is not the one the code uses. -/
def parenLine : List Char := "Atomic Number (a) = 5(3)\n".toList

/-- A well-formed Mode A symbol line (with its trailing newline, as
delivered by the line iterator). -/
def symLine : List Char := "Atomic Symbol = H\n".toList

/-- The P2 example value on a full line, usable in both modes. -/
def exLineA : List Char := "Relative Atomic Mass = 1.00782503223(9)\n".toList

/-- A lone Mode B line: one field of a record, no blank line after it. -/
def ragLine : List Char := "Atomic Number = 1\n".toList

/-! ## Helper lemmas -/

lemma mapOpt_length {f : α → Option β} :
    ∀ {l : List α} {r : List β}, mapOpt f l = some r → r.length = l.length := by
  intro l
  induction l with
  | nil => intro r h; simp [mapOpt] at h; simp [← h]
  | cons a as ih =>
    intro r h
    simp only [mapOpt] at h
    cases hfa : f a with
    | none => rw [hfa] at h; simp at h
    | some b =>
      rw [hfa] at h
      cases hrest : mapOpt f as with
      | none => rw [hrest] at h; simp at h
      | some bs =>
        rw [hrest] at h
        simp at h
        subst h
        simp [ih hrest]

lemma splitOnChar_ne_nil (c : Char) (l : List Char) : splitOnChar c l ≠ [] := by
  induction l with
  | nil => simp [splitOnChar]
  | cons x xs ih =>
    simp only [splitOnChar]
    split
    · simp
    · cases h : splitOnChar c xs with
      | nil => exact absurd h ih
      | cons hd tl => simp

lemma splitOnChar_length (c : Char) (l : List Char) :
    (splitOnChar c l).length = l.count c + 1 := by
  induction l with
  | nil => simp [splitOnChar]
  | cons x xs ih =>
    simp only [splitOnChar, List.count_cons]
    split
    · next hxc =>
      subst hxc
      simp [ih]
    · next hxc =>
      cases h : splitOnChar c xs with
      | nil => exact absurd h (splitOnChar_ne_nil c xs)
      | cons hd tl =>
        rw [h] at ih
        simp at ih
        have : (x == c) = false := by simp [hxc]
        simp [this, ih]

lemma splitOnChar_headD (c : Char) (l : List Char) :
    (splitOnChar c l).headD [] = l.takeWhile (fun x => x != c) := by
  induction l with
  | nil => simp [splitOnChar]
  | cons x xs ih =>
    simp only [splitOnChar, List.takeWhile]
    split
    · next hxc => subst hxc; simp
    · next hxc =>
      have hb : (x != c) = true := by simp [hxc]
      cases h : splitOnChar c xs with
      | nil => exact absurd h (splitOnChar_ne_nil c xs)
      | cons hd tl =>
        rw [h] at ih
        simp at ih
        simp [hb, ih]

lemma findIdxC_lt_length {c : Char} :
    ∀ {l : List Char} {j : ℕ}, findIdxC c l = some j → j < l.length := by
  intro l
  induction l with
  | nil => intro j h; simp [findIdxC] at h
  | cons x xs ih =>
    intro j h
    simp only [findIdxC] at h
    split at h
    · simp at h; simp only [List.length_cons]; omega
    · cases hr : findIdxC c xs with
      | none => rw [hr] at h; simp at h
      | some k =>
        rw [hr] at h
        simp at h
        have hk := ih hr
        simp only [List.length_cons]
        omega

lemma findIdxC_take {c : Char} :
    ∀ {l : List Char} {j : ℕ}, findIdxC c l = some j →
      l.take j = l.takeWhile (fun x => x != c) := by
  intro l
  induction l with
  | nil => intro j h; simp [findIdxC] at h
  | cons x xs ih =>
    intro j h
    simp only [findIdxC] at h
    split at h
    · next hx =>
      simp at h
      subst h hx
      simp [List.takeWhile]
    · next hx =>
      cases hr : findIdxC c xs with
      | none => rw [hr] at h; simp at h
      | some k =>
        rw [hr] at h
        simp at h
        subst h
        have hb : (x != c) = true := by simp [hx]
        simp [List.takeWhile, hb, ih hr]

lemma findIdxC_none_iff (c : Char) :
    ∀ (l : List Char), findIdxC c l = none ↔ c ∉ l := by
  intro l
  induction l with
  | nil => simp [findIdxC]
  | cons x xs ih =>
    simp only [findIdxC, List.mem_cons]
    split
    · next hx => subst hx; simp
    · next hx =>
      constructor
      · intro h hmem
        rcases hmem with h1 | h1
        · exact hx h1.symm
        · exact (ih.mp (Option.map_eq_none'.mp h)) h1
      · intro h
        rw [Option.map_eq_none']
        exact ih.mpr (fun hm => h (Or.inr hm))

lemma findIdxC_append {c : Char} :
    ∀ {s : List Char}, (∀ a ∈ s, a ≠ c) → ∀ (r : List Char),
      findIdxC c (s ++ r) = (findIdxC c r).map (· + s.length) := by
  intro s
  induction s with
  | nil => intro _ r; simp
  | cons x xs ih =>
    intro hs r
    have hx : ¬ (x = c) := hs x (by simp)
    rw [List.cons_append]
    have hstep : findIdxC c (x :: (xs ++ r)) = (findIdxC c (xs ++ r)).map (· + 1) := by
      simp [findIdxC, hx]
    rw [hstep, ih (fun a ha => hs a (by simp [ha])) r]
    cases findIdxC c r with
    | none => simp
    | some k => simp only [Option.map_some, List.length_cons]; simp; omega

lemma isPrefixOf_total :
    ∀ (l1 l2 line : List Char), l1.isPrefixOf line = true →
      l2.isPrefixOf line = true →
      l1.isPrefixOf l2 = true ∨ l2.isPrefixOf l1 = true := by
  intro l1
  induction l1 with
  | nil => intro l2 line _ _; left; simp [List.isPrefixOf]
  | cons a as ih =>
    intro l2 line h1 h2
    cases line with
    | nil => simp [List.isPrefixOf] at h1
    | cons c cs =>
      cases l2 with
      | nil => right; simp [List.isPrefixOf]
      | cons b bs =>
        simp only [List.isPrefixOf, Bool.and_eq_true, beq_iff_eq] at h1 h2
        obtain ⟨hac, has⟩ := h1
        obtain ⟨hbc, hbs⟩ := h2
        subst hac
        subst hbc
        rcases ih bs cs has hbs with h | h
        · left; simp [List.isPrefixOf, h]
        · right; simp [List.isPrefixOf, h]

lemma label_unique {l1 l2 line : List Char} (h1 : l1 ∈ labels) (h2 : l2 ∈ labels)
    (p1 : l1.isPrefixOf line = true) (p2 : l2.isPrefixOf line = true) : l1 = l2 := by
  have htot := isPrefixOf_total l1 l2 line p1 p2
  fin_cases h1 <;> fin_cases h2 <;> first
    | rfl
    | (exfalso; revert htot; decide)

lemma not_prefix_of_other (l1 l2 : List Char) {line : List Char} (h1 : l1 ∈ labels)
    (h2 : l2 ∈ labels) (hne : l1 ≠ l2) (p1 : l1.isPrefixOf line = true) :
    l2.isPrefixOf line = false := by
  cases hp2 : l2.isPrefixOf line with
  | false => rfl
  | true => exact absurd (label_unique h1 h2 p1 hp2) hne

lemma modeALine_eq {t : NISTTable} {line label : List Char} (hlab : label ∈ labels)
    (hp : label.isPrefixOf line = true) :
    modeALine t line = modeAProcessLabel t line label := by
  fin_cases hlab
  · have h2 := not_prefix_of_other lblAN lblAS (by decide) (by decide) (by decide) hp
    have h3 := not_prefix_of_other lblAN lblMN (by decide) (by decide) (by decide) hp
    have h4 := not_prefix_of_other lblAN lblRAM (by decide) (by decide) (by decide) hp
    cases hres : modeAProcessLabel t line lblAN <;>
      simp [modeALine, modeALineGo, labels, hp, h2, h3, h4, hres]
  · have h1 := not_prefix_of_other lblAS lblAN (by decide) (by decide) (by decide) hp
    have h3 := not_prefix_of_other lblAS lblMN (by decide) (by decide) (by decide) hp
    have h4 := not_prefix_of_other lblAS lblRAM (by decide) (by decide) (by decide) hp
    cases hres : modeAProcessLabel t line lblAS <;>
      simp [modeALine, modeALineGo, labels, hp, h1, h3, h4, hres]
  · have h1 := not_prefix_of_other lblMN lblAN (by decide) (by decide) (by decide) hp
    have h2 := not_prefix_of_other lblMN lblAS (by decide) (by decide) (by decide) hp
    have h4 := not_prefix_of_other lblMN lblRAM (by decide) (by decide) (by decide) hp
    cases hres : modeAProcessLabel t line lblMN <;>
      simp [modeALine, modeALineGo, labels, hp, h1, h2, h4, hres]
  · have h1 := not_prefix_of_other lblRAM lblAN (by decide) (by decide) (by decide) hp
    have h2 := not_prefix_of_other lblRAM lblAS (by decide) (by decide) (by decide) hp
    have h3 := not_prefix_of_other lblRAM lblMN (by decide) (by decide) (by decide) hp
    cases hres : modeAProcessLabel t line lblRAM <;>
      simp [modeALine, modeALineGo, labels, hp, h1, h2, h3, hres]

lemma parseA_append (t : NISTTable) (xs ys : List (List Char)) :
    parseA t (xs ++ ys) =
      match parseA t xs with
      | .error e => .error e
      | .ok t1 => parseA t1 ys := by
  induction xs generalizing t with
  | nil => simp [parseA]
  | cons x rest ih =>
    simp only [List.cons_append, parseA]
    cases modeALine t x with
    | error e => rfl
    | ok t1 => exact ih t1

lemma parseB_append (st : NISTTable × List (List Char)) (xs ys : List (List Char)) :
    parseB st (xs ++ ys) =
      match parseB st xs with
      | .error e => .error e
      | .ok st1 => parseB st1 ys := by
  induction xs generalizing st with
  | nil => simp [parseB]
  | cons x rest ih =>
    simp only [List.cons_append, parseB]
    cases modeBLine st x with
    | error e => rfl
    | ok st1 => exact ih st1

lemma modeBLine_ws_le {st st1 : NISTTable × List (List Char)} {line : List Char}
    (h : modeBLine st line = .ok st1) : st.2.length ≤ st1.2.length := by
  unfold modeBLine at h
  dsimp only at h
  repeat' split at h
  all_goals first
    | exact (Except.noConfusion h)
    | (subst h; simp)
    | (injection h with h; subst h; simp)
    | (split at h <;> first
        | exact (Except.noConfusion h)
        | (subst h; simp)
        | (injection h with h; subst h; simp))

lemma parseB_ws_le :
    ∀ {lines : List (List Char)} {st st1 : NISTTable × List (List Char)},
      parseB st lines = .ok st1 → st.2.length ≤ st1.2.length := by
  intro lines
  induction lines with
  | nil => intro st st1 h; simp [parseB] at h; simp [← h]
  | cons x rest ih =>
    intro st st1 h
    simp only [parseB] at h
    cases hm : modeBLine st x with
    | error e => rw [hm] at h; simp at h
    | ok st2 =>
      rw [hm] at h
      exact le_trans (modeBLine_ws_le hm) (ih h)

lemma roundHalfEven_close (q : ℚ) : |q - ((roundHalfEven q : ℤ) : ℚ)| ≤ 1/2 := by
  have h0 : ((⌊q⌋ : ℤ) : ℚ) ≤ q := Int.floor_le q
  have h1 : q < ((⌊q⌋ : ℤ) : ℚ) + 1 := Int.lt_floor_add_one q
  unfold roundHalfEven
  split
  · next h => rw [abs_le]; constructor <;> push_cast <;> linarith
  · next h =>
    push_neg at h
    split
    · next h2 => rw [abs_le]; constructor <;> push_cast <;> linarith
    · next h2 =>
      push_neg at h2
      split <;> (rw [abs_le]; constructor <;> push_cast <;> linarith)

lemma massDefect_eq :
    ∀ (ams ans : List ℚ),
      List.zipWith (fun p m => (p - m) * qAmu)
        (List.zipWith (fun n z => n * qNeutron + z * qProton + z * qElectron)
          (List.zipWith (fun m z => m - z)
            (ams.map (fun q => ((roundHalfEven q : ℤ) : ℚ))) ans) ans)
        ams = claimMassDefect ams ans := by
  intro ams
  induction ams with
  | nil => intro ans; simp [claimMassDefect]
  | cons m ms ih =>
    intro ans
    cases ans with
    | nil => simp [claimMassDefect]
    | cons z zs =>
      simp only [List.map_cons, List.zipWith_cons_cons, claimMassDefect]
      congr 1
      · ring
      · exact ih zs

lemma get_binding_energy_eval (t : NISTTable) (ams ans : List ℚ) (norm : Bool)
    (hma : mapOpt toNum t.relativeAtomicMass = some ams)
    (hz : mapOpt toNum t.atomicNumber = some ans)
    (hlen : ans.length = ams.length) :
    get_binding_energy t norm =
      some (if norm then
          List.zipWith (fun d m => d / m) (codeMassDefect ams ans)
            (ams.map (fun q => ((roundHalfEven q : ℤ) : ℚ)))
        else codeMassDefect ams ans) := by
  have hgm : get_mass_number t =
      some (ams.map (fun q => ((roundHalfEven q : ℤ) : ℚ))) := by
    simp [get_mass_number, hma]
  unfold get_binding_energy
  rw [hma, hz, hgm]
  dsimp only
  rw [if_pos hlen]
  cases norm
  · rw [if_neg (by simp)]
    rfl
  · rw [if_pos rfl]
    rfl

lemma parseA_append_ok {t0 t : NISTTable} {xs : List (List Char)}
    (h : parseA t0 xs = .ok t) (ys : List (List Char)) :
    parseA t0 (xs ++ ys) = parseA t ys := by
  rw [parseA_append, h]

lemma parseB_append_ok {st0 st : NISTTable × List (List Char)}
    {xs : List (List Char)} (h : parseB st0 xs = .ok st) (ys : List (List Char)) :
    parseB st0 (xs ++ ys) = parseB st ys := by
  rw [parseB_append, h]

/-! ## Claim theorems

Inside this section the Batteries rational-arithmetic operations are made
semireducible so that concrete tables can be evaluated by `decide`. -/

section ClaimTheorems

attribute [local semireducible] Rat.mul Rat.add Rat.sub Rat.inv Rat.ofScientific

/-- **C4** (confirmed): a Mode A invocation whose transport status code is
anything other than 200 returns the `TransportError` sentinel; no line is
processed and the result carries no table, so nothing is appended by that
call. -/
theorem claim_C4_transport_error (code : ℤ) (webLines : List (List Char))
    (file : Option (List (List Char))) (hcode : code ≠ 200) :
    read_NIST_data (some (code, webLines)) file =
      .ok (.transportFailure code, []) := by
  simp [read_NIST_data, hcode]

/-- Witness for C4 at status 404 with pending web and file input. -/
theorem claim_C4_witness :
    read_NIST_data (some (404, [ragLine])) (some [ragLine]) =
      .ok (.transportFailure 404, []) :=
  claim_C4_transport_error 404 [ragLine] (some [ragLine]) (by decide)

/-- **C10** (confirmed): in Mode B, a line containing `=` twice or more
makes the two-variable unpacking of `line.split('=')` fail; the error
propagates and aborts the parse, even for unrecognized tags. -/
theorem claim_C10_unpack_error (pre post : List (List Char))
    (st0 st : NISTTable × List (List Char)) (line : List Char)
    (hpre : parseB st0 pre = .ok st)
    (h2 : 2 ≤ line.count '=') :
    parseB st0 (pre ++ line :: post) = .error (.unpackError line) := by
  rw [parseB_append_ok hpre]
  have hmem : '=' ∈ line := by
    have hpos : 0 < line.count '=' := by omega
    exact List.count_pos_iff.mp hpos
  have hcont : line.contains '=' = true := by simpa using hmem
  have hlen : (splitOnChar '=' line).length = line.count '=' + 1 :=
    splitOnChar_length '=' line
  obtain ⟨a, b, c, r, hsp⟩ : ∃ a b c r, splitOnChar '=' line = a :: b :: c :: r := by
    match hs : splitOnChar '=' line with
    | [] => rw [hs] at hlen; simp at hlen
    | [x] => rw [hs] at hlen; simp at hlen; omega
    | [x, y] => rw [hs] at hlen; simp at hlen; omega
    | x :: y :: z :: rr => exact ⟨x, y, z, rr, rfl⟩
  have hml : modeBLine st line = .error (.unpackError line) := by
    unfold modeBLine
    rw [if_pos hcont, hsp]
  simp only [parseB, hml]

/-- Witness for C10 on a line whose value itself contains `=`. -/
theorem claim_C10_witness :
    parseB (emptyTable, []) ([] ++ "a = b = c\n".toList :: [ragLine]) =
      .error (.unpackError "a = b = c\n".toList) :=
  claim_C10_unpack_error [] [ragLine] (emptyTable, []) (emptyTable, [])
    "a = b = c\n".toList rfl (by decide)

/-- **C8** (confirmed): in Mode B, a blank line at which the four sequence
lengths are not all equal emits the non-fatal warning without raising,
and parsing continues with the remaining lines from the same state. -/
theorem claim_C8_inconsistency_warning (pre post : List (List Char))
    (st0 : NISTTable × List (List Char)) (t : NISTTable) (ws : List (List Char))
    (hpre : parseB st0 pre = .ok (t, ws))
    (hbad : lensConsistent t = false) :
    parseB st0 (pre ++ ['\n'] :: post) =
      parseB (t, ws ++ [inconsistentWarning]) post := by
  rw [parseB_append_ok hpre]
  have hml : modeBLine (t, ws) ['\n'] = .ok (t, ws ++ [inconsistentWarning]) := by
    unfold modeBLine
    rw [if_neg (by decide), if_pos rfl, if_neg (by simp [hbad])]
  simp only [parseB, hml]

/-- Witness for C8: a record missing three fields, then a blank line, then
another record; the warning is emitted and the parse continues. -/
theorem claim_C8_witness :
    parseB (emptyTable, []) ([ragLine] ++ ['\n'] :: ["Atomic Number = 2\n".toList]) =
      parseB ({ emptyTable with atomicNumber := [.str ['1']] },
        [inconsistentWarning]) ["Atomic Number = 2\n".toList] :=
  claim_C8_inconsistency_warning [ragLine] ["Atomic Number = 2\n".toList]
    (emptyTable, []) { emptyTable with atomicNumber := [.str ['1']] } []
    (by decide) (by decide)

/-- **C9 counterexample**: a successful parse (Mode B, via
`read_NIST_data`) of a single field line returns a table whose four
sequences do NOT have equal length — the claimed invariant is not
enforced by the code. -/
theorem claim_C9_counterexample :
    read_NIST_data none (some [ragLine]) =
      .ok (.table ⟨[.str ['1']], [], [], []⟩, []) ∧
    lensConsistent ⟨[.str ['1']], [], [], []⟩ = false := by
  decide

/-- **C9** (corrected): the parser does not enforce the equal-length
invariant on successful parses; what holds is: a successful Mode B parse
whose input ends at a record boundary (final blank line) and which emits
no warning ends with all four sequences of equal length. -/
theorem claim_C9_amended (lines : List (List Char))
    (st0 : NISTTable × List (List Char)) (t : NISTTable) (ws : List (List Char))
    (hok : parseB st0 (lines ++ [['\n']]) = .ok (t, ws))
    (hnw : ws = st0.2) :
    lensConsistent t = true := by
  rw [parseB_append] at hok
  cases hp : parseB st0 lines with
  | error e =>
    rw [hp] at hok
    exact absurd hok (by simp)
  | ok st1 =>
    rw [hp] at hok
    obtain ⟨t1, ws1⟩ := st1
    have hmono : st0.2.length ≤ ws1.length := parseB_ws_le hp
    dsimp only at hok
    by_cases hc : lensConsistent t1 = true
    · have hml : modeBLine (t1, ws1) ['\n'] = .ok (t1, ws1) := by
        unfold modeBLine
        rw [if_neg (by decide), if_pos rfl, if_pos hc]
      simp only [parseB, hml] at hok
      injection hok with hok
      injection hok with hok1 hok2
      subst hok1
      exact hc
    · have hml : modeBLine (t1, ws1) ['\n'] = .ok (t1, ws1 ++ [inconsistentWarning]) := by
        unfold modeBLine
        rw [if_neg (by decide), if_pos rfl, if_neg hc]
      simp only [parseB, hml] at hok
      injection hok with hok
      injection hok with hok1 hok2
      subst hnw
      rw [← hok2] at hmono
      simp at hmono

/-- Witness for C9: a complete record followed by a blank line parses with
no warning, and the resulting table is length-consistent. -/
theorem claim_C9_witness :
    lensConsistent
      ⟨[.str ['1']], [.str ['H']], [.str ['1']], [.str "1.00782503223".toList]⟩ = true :=
  claim_C9_amended
    [ragLine, "Atomic Symbol = H\n".toList, "Mass Number = 1\n".toList,
     "Relative Atomic Mass = 1.00782503223(9)\n".toList]
    (emptyTable, [])
    ⟨[.str ['1']], [.str ['H']], [.str ['1']], [.str "1.00782503223".toList]⟩
    [] (by decide) rfl

/-- **C5** (confirmed): in Mode A, a line matching one of the three
non-symbol labels whose extracted value text is not a valid float raises
a `MalformedRecord` error that propagates to the caller: the parse aborts
and no later line is processed. -/
theorem claim_C5_malformed_record (pre post : List (List Char)) (t0 t : NISTTable)
    (line label : List Char) (ie : ℕ) (slice : List Char)
    (hlab : label ∈ [lblAN, lblMN, lblRAM])
    (hp : label.isPrefixOf line = true)
    (heq : charIndexFrom line '=' label.length = some ie)
    (hsl : modeASliceOf line label ie = .ok slice)
    (hbad : pyFloat slice = none)
    (hpre : parseA t0 pre = .ok t) :
    parseA t0 (pre ++ line :: post) = .error (.malformedRecord line) := by
  rw [parseA_append_ok hpre]
  have hlab4 : label ∈ labels := by fin_cases hlab <;> decide
  have hns : ¬ (label = lblAS) := by fin_cases hlab <;> decide
  have hml : modeALine t line = .error (.malformedRecord line) := by
    rw [modeALine_eq hlab4 hp]
    unfold modeAProcessLabel
    rw [heq]
    dsimp only
    rw [hsl]
    dsimp only
    rw [if_neg hns, hbad]
  simp only [parseA, hml]

/-- Witness for C5: `Mass Number = abc` aborts the parse before the
following line. -/
theorem claim_C5_witness :
    parseA emptyTable ([] ++ "Mass Number = abc\n".toList :: [ragLine]) =
      .error (.malformedRecord "Mass Number = abc\n".toList) :=
  claim_C5_malformed_record [] [ragLine] emptyTable emptyTable
    "Mass Number = abc\n".toList lblMN 12 [' ', 'a', 'b', 'c', '\n']
    (by decide) (by decide) (by decide) (by decide) (by decide) rfl

/-- **C7 counterexample**: the Mode A symbol value is appended as the raw
slice, which carries the leading space after `=` and the trailing
newline: it is NOT trimmed. -/
theorem claim_C7_counterexample :
    parseA emptyTable [symLine] =
      .ok { emptyTable with atomicSymbol := [.str [' ', 'H', '\n']] } ∧
    trimList [' ', 'H', '\n'] ≠ [' ', 'H', '\n'] := by
  decide

/-- **C7** (corrected): for every Mode A line matching `Atomic Symbol`,
the appended value is the raw, untrimmed slice of the line from just
after the `=` to the code's truncation point: to the end of the line when
no `(` follows the value start (so it keeps the leading space after the
`=` and the trailing newline), and to the code's `(`-index otherwise (a
raw slice again, with no trimming — it keeps the leading space but loses
the newline, and becomes the empty string when that index falls before
the value start).  Concretely: `Atomic Symbol = H` stores `" H\n"`,
`Atomic Symbol = H(x)` stores `" H"`, and `Atomic Symbol (x) = H(2)`
stores `""`. -/
theorem claim_C7_amended :
    (∀ (t : NISTTable) (line : List Char) (ie : ℕ),
        lblAS.isPrefixOf line = true →
        charIndexFrom line '=' lblAS.length = some ie →
        (line.drop (ie + 1)).contains '(' = false →
        modeALine t line =
          .ok { t with atomicSymbol := t.atomicSymbol ++ [.str (line.drop (ie + 1))] }) ∧
    (∀ (t : NISTTable) (line : List Char) (ie ip : ℕ),
        lblAS.isPrefixOf line = true →
        charIndexFrom line '=' lblAS.length = some ie →
        (line.drop (ie + 1)).contains '(' = true →
        charIndexFrom line '(' lblAS.length = some ip →
        modeALine t line =
          .ok { t with atomicSymbol := t.atomicSymbol ++ [.str (pySlice line (ie + 1) ip)] }) ∧
    (modeALine emptyTable "Atomic Symbol = H(x)\n".toList =
        .ok { emptyTable with atomicSymbol := [.str [' ', 'H']] } ∧
      modeALine emptyTable "Atomic Symbol (x) = H(2)\n".toList =
        .ok { emptyTable with atomicSymbol := [.str []] }) := by
  refine ⟨fun t line ie hp heq hnp => ?_, fun t line ie ip hp heq hcp hip => ?_,
    by decide, by decide⟩
  · rw [modeALine_eq (by decide) hp]
    unfold modeAProcessLabel
    rw [heq]
    dsimp only
    have hsl : modeASliceOf line lblAS ie = .ok (line.drop (ie + 1)) := by
      unfold modeASliceOf
      dsimp only
      rw [if_neg (by rw [hnp]; exact Bool.false_ne_true)]
      unfold pySlice
      rw [List.take_of_length_le (by simp)]
    rw [hsl]
    dsimp only
    rw [if_pos rfl]
    unfold appendField
    rw [if_neg (by decide), if_pos rfl]
  · rw [modeALine_eq (by decide) hp]
    unfold modeAProcessLabel
    rw [heq]
    dsimp only
    have hsl : modeASliceOf line lblAS ie = .ok (pySlice line (ie + 1) ip) := by
      unfold modeASliceOf
      dsimp only
      rw [if_pos hcp, hip]
    rw [hsl]
    dsimp only
    rw [if_pos rfl]
    unfold appendField
    rw [if_neg (by decide), if_pos rfl]

/-- Witness for C7 on `Atomic Symbol = H` (end-of-line branch, keeps the
leading space and the newline) and `Atomic Symbol = H(x)` (paren branch,
raw slice `" H"`). -/
theorem claim_C7_witness :
    modeALine emptyTable symLine =
      .ok { emptyTable with atomicSymbol := [.str [' ', 'H', '\n']] } ∧
    modeALine emptyTable "Atomic Symbol = H(x)\n".toList =
      .ok { emptyTable with atomicSymbol := [.str [' ', 'H']] } :=
  ⟨claim_C7_amended.1 emptyTable symLine 14 (by decide) (by decide) (by decide),
   claim_C7_amended.2.1 emptyTable "Atomic Symbol = H(x)\n".toList 14 17
     (by decide) (by decide) (by decide) (by decide)⟩

lemma modeASlice_first_paren (line label : List Char) (ie : ℕ)
    (heq : charIndexFrom line '=' label.length = some ie)
    (hseg : (pySlice line label.length (ie + 1)).contains '(' = false)
    (hpost : (line.drop (ie + 1)).contains '(' = true) :
    modeASliceOf line label ie =
      .ok ((line.drop (ie + 1)).takeWhile (fun c => c != '(')) := by
  obtain ⟨j0, hj0, hj0e⟩ :
      ∃ j0, findIdxC '=' (line.drop label.length) = some j0 ∧
        j0 + label.length = ie := by
    unfold charIndexFrom at heq
    cases hf : findIdxC '=' (line.drop label.length) with
    | none => rw [hf] at heq; simp at heq
    | some j0 => rw [hf] at heq; simp at heq; exact ⟨j0, rfl, heq⟩
  have hjlt : j0 < (line.drop label.length).length := findIdxC_lt_length hj0
  have hlablt : label.length ≤ ie := by omega
  have hie_lt : ie < line.length := by
    rw [List.length_drop] at hjlt
    omega
  obtain ⟨j, hj⟩ : ∃ j, findIdxC '(' (line.drop (ie + 1)) = some j := by
    cases hf : findIdxC '(' (line.drop (ie + 1)) with
    | none =>
      have hnone : '(' ∉ line.drop (ie + 1) := (findIdxC_none_iff '(' _).mp hf
      have hmem : '(' ∈ line.drop (ie + 1) := List.elem_iff.mp hpost
      exact absurd hmem hnone
    | some j => exact ⟨j, rfl⟩
  have hsplit : line.drop label.length =
      (line.drop label.length).take (ie + 1 - label.length) ++ line.drop (ie + 1) := by
    have h1 : line.drop (ie + 1) =
        (line.drop label.length).drop (ie + 1 - label.length) := by
      rw [List.drop_drop]
      congr 1
      omega
    rw [h1, List.take_append_drop]
  have hsegfree :
      ∀ a ∈ (line.drop label.length).take (ie + 1 - label.length), a ≠ '(' := by
    intro a ha hac
    subst hac
    have hmem : ('(' : Char) ∈ pySlice line label.length (ie + 1) := ha
    have hcontr : (pySlice line label.length (ie + 1)).contains '(' = true :=
      List.elem_iff.mpr hmem
    rw [hseg] at hcontr
    exact Bool.false_ne_true hcontr
  have hseglen :
      ((line.drop label.length).take (ie + 1 - label.length)).length =
        ie + 1 - label.length := by
    rw [List.length_take, List.length_drop]
    omega
  have hfind : charIndexFrom line '(' label.length = some (j + (ie + 1)) := by
    unfold charIndexFrom
    rw [hsplit, findIdxC_append hsegfree, hj]
    simp only [Option.map_some']
    congr 1
    rw [hseglen]
    omega
  unfold modeASliceOf
  dsimp only
  rw [if_pos hpost, hfind]
  dsimp only
  congr 1
  unfold pySlice
  have hsub : j + (ie + 1) - (ie + 1) = j := by omega
  rw [hsub]
  exact findIdxC_take hj

lemma modeB_truncates (t : NISTTable) (ws : List (List Char)) (line a b : List Char)
    (hsp : splitOnChar '=' line = [a, b])
    (htag : labels.contains (trimList a) = true)
    (hpar : (trimList b).contains '(' = true) :
    modeBLine (t, ws) line =
      .ok (appendField t (trimList a)
        (.str ((trimList b).takeWhile (fun c => c != '('))), ws) := by
  have hcont : line.contains '=' = true := by
    have hlen := splitOnChar_length '=' line
    rw [hsp] at hlen
    simp at hlen
    have hmem : '=' ∈ line := List.count_pos_iff.mp (by omega)
    exact List.elem_iff.mpr hmem
  unfold modeBLine
  rw [if_pos hcont, hsp]
  dsimp only
  rw [if_pos htag, if_pos hpar, splitOnChar_headD]

/-- **C6** (corrected): uncertainty stripping.  In Mode B the trimmed
value is truncated exactly at its first `(`, as claimed.  In Mode A,
however, the `(`-search restarts at the end of the LABEL, not at the
value start; the claimed truncation point (first `(` after the value
start) is only obtained when no `(` occurs between the label end and the
value start.  The example value `1.00782503223(9)` parses to exactly
`1.00782503223` in both modes. -/
theorem claim_C6_amended :
    (∀ (line label : List Char) (ie : ℕ),
        charIndexFrom line '=' label.length = some ie →
        (pySlice line label.length (ie + 1)).contains '(' = false →
        (line.drop (ie + 1)).contains '(' = true →
        modeASliceOf line label ie =
          .ok ((line.drop (ie + 1)).takeWhile (fun c => c != '('))) ∧
    (∀ (t : NISTTable) (ws : List (List Char)) (line a b : List Char),
        splitOnChar '=' line = [a, b] →
        labels.contains (trimList a) = true →
        (trimList b).contains '(' = true →
        modeBLine (t, ws) line =
          .ok (appendField t (trimList a)
            (.str ((trimList b).takeWhile (fun c => c != '('))), ws)) ∧
    (parseA emptyTable [exLineA] =
        .ok ⟨[], [], [], [.num (100782503223 / 100000000000)]⟩ ∧
      parseB (emptyTable, []) [exLineA] =
        .ok (⟨[], [], [], [.str "1.00782503223".toList]⟩, [])) :=
  ⟨fun line label ie h1 h2 h3 => modeASlice_first_paren line label ie h1 h2 h3,
   fun t ws line a b h1 h2 h3 => modeB_truncates t ws line a b h1 h2 h3,
   by decide, by decide⟩

/-- **C6 counterexample**: on a line with a `(` between the label and the
`=`, the claimed truncation (at the first `(` after the value start)
would extract ` 5`, a valid float, but the code instead slices backwards
to the earlier `(`, obtains an empty value, and raises
`MalformedRecord`. -/
theorem claim_C6_counterexample :
    parseA emptyTable [parenLine] = .error (.malformedRecord parenLine) ∧
    pyFloat ((parenLine.drop 19).takeWhile (fun c => c != '(')) = some 5 := by
  decide

/-- Witness for C6 on `Mass Number = 7(2)` (Mode A slice and Mode B line)
plus the P2 example line. -/
theorem claim_C6_witness :
    modeASliceOf "Mass Number = 7(2)\n".toList lblMN 12 =
      .ok (("Mass Number = 7(2)\n".toList.drop 13).takeWhile (fun c => c != '(')) ∧
    modeBLine (emptyTable, []) "Mass Number = 7(2)\n".toList =
      .ok (appendField emptyTable (trimList "Mass Number ".toList)
        (.str ((trimList " 7(2)\n".toList).takeWhile (fun c => c != '('))), []) ∧
    parseA emptyTable [exLineA] =
      .ok ⟨[], [], [], [.num (100782503223 / 100000000000)]⟩ :=
  ⟨claim_C6_amended.1 "Mass Number = 7(2)\n".toList lblMN 12
      (by decide) (by decide) (by decide),
   claim_C6_amended.2.1 emptyTable [] "Mass Number = 7(2)\n".toList
      "Mass Number ".toList " 7(2)\n".toList (by decide) (by decide) (by decide),
   claim_C6_amended.2.2.1⟩

/-- **C2** (confirmed): for a table whose `Relative Atomic Mass` sequence
is numeric, `get_mass_number` returns a sequence of the same length whose
entry `i` is an integer within one half of `RelativeAtomicMass[i]` (the
nearest whole number; `np.around` resolves ties to even), and the result
is computed solely from the `Relative Atomic Mass` field: any table with
the same `Relative Atomic Mass` sequence — in particular with a different
parsed `Mass Number` field — yields the same result. -/
theorem claim_C2_mass_number (t : NISTTable) (ms : List ℚ)
    (hm : mapOpt toNum t.relativeAtomicMass = some ms) :
    ∃ l, get_mass_number t = some l ∧
      l.length = t.relativeAtomicMass.length ∧
      (∀ (i : ℕ) (h1 : i < l.length) (h2 : i < ms.length),
        ∃ z : ℤ, l.get ⟨i, h1⟩ = (z : ℚ) ∧ |ms.get ⟨i, h2⟩ - (z : ℚ)| ≤ 1/2) ∧
      (∀ t2 : NISTTable, t2.relativeAtomicMass = t.relativeAtomicMass →
        get_mass_number t2 = get_mass_number t) := by
  refine ⟨ms.map (fun q => ((roundHalfEven q : ℤ) : ℚ)), ?_, ?_, ?_, ?_⟩
  · simp [get_mass_number, hm]
  · rw [List.length_map, mapOpt_length hm]
  · intro i h1 h2
    refine ⟨roundHalfEven (ms.get ⟨i, h2⟩), ?_, roundHalfEven_close _⟩
    simp [List.get_eq_getElem, List.getElem_map]
  · intro t2 h2
    simp [get_mass_number, h2]

/-- Witness for C2 on the helium-4 table. -/
theorem claim_C2_witness :
    ∃ l, get_mass_number he4 = some l ∧
      l.length = he4.relativeAtomicMass.length ∧
      (∀ (i : ℕ) (h1 : i < l.length) (h2 : i < [(4002602 : ℚ) / 1000000].length),
        ∃ z : ℤ, l.get ⟨i, h1⟩ = (z : ℚ) ∧
          |[(4002602 : ℚ) / 1000000].get ⟨i, h2⟩ - (z : ℚ)| ≤ 1/2) ∧
      (∀ t2 : NISTTable, t2.relativeAtomicMass = he4.relativeAtomicMass →
        get_mass_number t2 = get_mass_number he4) :=
  claim_C2_mass_number he4 [(4002602 : ℚ) / 1000000] (by decide)

/-- **C1** (corrected): `get_binding_energy` with `norm := false` computes
exactly the claimed mass-defect formula (with `neutronCount[i] =
massNumber[i] - AtomicNumber[i]` and the stated constants).  On the
helium-4 record the normalized result is `7.0742145…` MeV, which is
within `5e-3` of `7.07` — but NOT within the claimed tolerance `1e-3`
(see the counterexample). -/
theorem claim_C1_formula_he4 :
    (∀ (t : NISTTable) (ams ans : List ℚ),
        mapOpt toNum t.relativeAtomicMass = some ams →
        mapOpt toNum t.atomicNumber = some ans →
        ans.length = ams.length →
        get_binding_energy t false = some (claimMassDefect ams ans)) ∧
    get_binding_energy he4 true = some [he4BE] ∧
    |he4BE - 707/100| < 1/200 := by
  refine ⟨fun t ams ans hma hz hlen => ?_, by decide, by decide⟩
  rw [get_binding_energy_eval t ams ans false hma hz hlen, if_neg (by simp)]
  exact congrArg some (massDefect_eq ams ans)

/-- **C1 counterexample**: the helium-4 normalized binding energy the code
computes differs from `7.07` by about `4.2e-3`, so it is not within the
claimed tolerance `1e-3`. -/
theorem claim_C1_counterexample :
    get_binding_energy he4 true = some [he4BE] ∧
    ¬ (|he4BE - 707/100| ≤ 1/1000) := by
  decide

/-- Witness for C1 on the helium-4 table. -/
theorem claim_C1_witness :
    get_binding_energy he4 false =
      some (claimMassDefect [(4002602 : ℚ) / 1000000] [2]) ∧
    get_binding_energy he4 true = some [he4BE] ∧
    |he4BE - 707/100| < 1/200 :=
  ⟨claim_C1_formula_he4.1 he4 [(4002602 : ℚ) / 1000000] [2]
      (by decide) (by decide) rfl,
   claim_C1_formula_he4.2.1, claim_C1_formula_he4.2.2⟩

/-- **C3** (confirmed): under the Calculator precondition (numeric
sequences of equal length, nonzero mass numbers), the unnormalized
binding energy equals the normalized one multiplied back by the mass
number, entry by entry. -/
theorem claim_C3_normalize (t : NISTTable) (ams ans u v m : List ℚ)
    (hma : mapOpt toNum t.relativeAtomicMass = some ams)
    (hz : mapOpt toNum t.atomicNumber = some ans)
    (hlen : ans.length = ams.length)
    (hu : get_binding_energy t false = some u)
    (hv : get_binding_energy t true = some v)
    (hm : get_mass_number t = some m)
    (hnz : ∀ (i : ℕ) (h : i < m.length), m.get ⟨i, h⟩ ≠ 0) :
    ∀ (i : ℕ) (h1 : i < u.length) (h2 : i < v.length) (h3 : i < m.length),
      u.get ⟨i, h1⟩ = v.get ⟨i, h2⟩ * m.get ⟨i, h3⟩ := by
  have hmn : m = ams.map (fun q => ((roundHalfEven q : ℤ) : ℚ)) := by
    have h2 := hm
    simp [get_mass_number, hma] at h2
    exact h2.symm
  rw [get_binding_energy_eval t ams ans false hma hz hlen, if_neg (by simp)] at hu
  rw [get_binding_energy_eval t ams ans true hma hz hlen, if_pos rfl] at hv
  injection hu with hu
  injection hv with hv
  subst hmn
  subst hu
  subst hv
  intro i h1 h2 h3
  simp only [List.get_eq_getElem, List.getElem_zipWith]
  exact (div_mul_cancel₀ _ (by simpa using hnz i h3)).symm

/-- Witness for C3 on the helium-4 table at index 0. -/
theorem claim_C3_witness :
    [(4 : ℚ) * he4BE].get ⟨0, Nat.one_pos⟩ =
      [he4BE].get ⟨0, Nat.one_pos⟩ * [(4 : ℚ)].get ⟨0, Nat.one_pos⟩ :=
  claim_C3_normalize he4 [(4002602 : ℚ) / 1000000] [2]
    [(4 : ℚ) * he4BE] [he4BE] [(4 : ℚ)]
    (by decide) (by decide) rfl (by decide) (by decide) (by decide) (by decide)
    0 Nat.one_pos Nat.one_pos Nat.one_pos

end ClaimTheorems

end FusionPlots
